import Mathlib

/-!
# Verification of `prime.py`

Shallow embedding of the prime-search program: the primality test
`is_prime`, the worker candidate cursor (`current += stride + growth`),
the time-sliced worker loop with batch reports, and the aggregator that
folds reports into `total` / `highest` and recomputes `speed` at the
one-second cadence boundary.

Python integers are unbounded, so they are embedded as `ℤ` (or as `ℕ`
for quantities that are provably non-negative, such as the worker's
candidate cursor, which starts at `100 + worker_id` and only grows).
-/

/-- Largest `k ≤ r` with `k * k ≤ n` (`0` when `r = 0`).  Auxiliary,
structurally recursive computation of the integer square root. -/
def isqrtAux (n : ℕ) : ℕ → ℕ
  | 0 => 0
  | r + 1 => if (r + 1) * (r + 1) ≤ n then r + 1 else isqrtAux n r

/-- Integer square root, `math.isqrt`: the largest `k` with `k * k ≤ n`.
Defined by (kernel-computable) search; proved equal to `Nat.sqrt` in
`isqrt_eq_sqrt`. -/
def isqrt (n : ℕ) : ℕ := isqrtAux n n

theorem isqrtAux_le (n : ℕ) : ∀ r, isqrtAux n r * isqrtAux n r ≤ n := by
  intro r
  induction r with
  | zero => simp [isqrtAux]
  | succ r ih =>
    rw [isqrtAux]
    split
    · assumption
    · exact ih

theorem isqrtAux_maximal (n : ℕ) :
    ∀ r k, k ≤ r → k * k ≤ n → k ≤ isqrtAux n r := by
  intro r
  induction r with
  | zero => intro k hk _; omega
  | succ r ih =>
    intro k hk hkk
    rw [isqrtAux]
    split
    · omega
    · rcases Nat.lt_or_ge k (r + 1) with h | h
      · exact ih k (by omega) hkk
      · exfalso
        have hkr : k = r + 1 := by omega
        subst hkr
        omega

theorem isqrt_eq_sqrt (n : ℕ) : isqrt n = Nat.sqrt n := by
  refine Nat.le_antisymm (Nat.le_sqrt.2 (isqrtAux_le n n)) ?_
  exact isqrtAux_maximal n n (Nat.sqrt n) (Nat.sqrt_le_self n) (Nat.sqrt_le n)

/-- The loop `for i in range(3, limit + 1, 2)` of `is_prime`, with the
range's length `t` made explicit: starting at the loop variable `i`, test
`t` successive odd candidates, returning `false` on the first divisor of
`num` and `true` when the range is exhausted. -/
def trialLoop (num : ℤ) : ℕ → ℕ → Bool
  | 0, _ => true
  | t + 1, i => if num % (i : ℤ) = 0 then false else trialLoop num t (i + 2)

/-- `is_prime` from `prime.py` (lines 13–22): `false` below 2, `true` at 2,
`false` for larger even numbers, otherwise trial division by the odd
integers `3, 5, …` up to and including `math.isqrt(num)`.  The range
`range(3, limit + 1, 2)` has `(limit - 1) / 2` elements. -/
def is_prime (num : ℤ) : Bool :=
  if num < 2 then false
  else if num = 2 then true
  else if num % 2 = 0 then false
  else trialLoop num ((isqrt num.toNat - 1) / 2) 3

theorem trialLoop_eq_true_iff (num : ℤ) :
    ∀ t i, trialLoop num t i = true ↔ ∀ s, s < t → ¬ ((i + 2 * s : ℕ) : ℤ) ∣ num := by
  intro t
  induction t with
  | zero => intro i; simp [trialLoop]
  | succ t ih =>
    intro i
    rw [trialLoop]
    split
    · rename_i hdvd
      simp only [Bool.false_eq_true, false_iff]
      intro hall
      refine hall 0 (by omega) ?_
      have h0 : ((i + 2 * 0 : ℕ) : ℤ) = (i : ℤ) := by push_cast; ring
      rw [h0]
      exact Int.dvd_of_emod_eq_zero hdvd
    · rename_i hndvd
      rw [ih (i + 2)]
      constructor
      · intro hall s hs
        cases s with
        | zero =>
          intro hd
          apply hndvd
          apply Int.emod_eq_zero_of_dvd
          have h0 : ((i + 2 * 0 : ℕ) : ℤ) = (i : ℤ) := by push_cast; ring
          rw [h0] at hd
          exact hd
        | succ s =>
          have he : i + 2 * (s + 1) = i + 2 + 2 * s := by ring
          rw [he]
          exact hall s (by omega)
      · intro hall s hs
        have he : i + 2 + 2 * s = i + 2 * (s + 1) := by ring
        rw [he]
        exact hall (s + 1) (by omega)

theorem is_prime_eq_true_iff (n : ℤ) :
    is_prime n = true ↔ 2 ≤ n ∧ Nat.Prime n.toNat := by
  unfold is_prime
  split
  · rename_i h
    simp only [Bool.false_eq_true, false_iff]
    rintro ⟨h2, _⟩
    omega
  · rename_i h1
    split
    · rename_i h2
      subst h2
      simp only [true_iff]
      exact ⟨by omega, Nat.prime_two⟩
    · rename_i h2
      split
      · rename_i h3
        simp only [Bool.false_eq_true, false_iff]
        rintro ⟨hn2, hp⟩
        have hdvd : 2 ∣ n.toNat := by omega
        rcases hp.eq_one_or_self_of_dvd 2 hdvd with h | h <;> omega
      · rename_i h3
        have hn3 : 3 ≤ n := by omega
        have hodd : n % 2 = 1 := by omega
        have hNn : (n.toNat : ℤ) = n := Int.toNat_of_nonneg (by omega)
        rw [isqrt_eq_sqrt, trialLoop_eq_true_iff]
        constructor
        · intro hall
          refine ⟨by omega, ?_⟩
          rw [Nat.prime_def_le_sqrt]
          refine ⟨by omega, ?_⟩
          intro m hm2 hmsqrt hmdvd
          have hL3 : 3 ≤ Nat.sqrt n.toNat ∨ m % 2 = 0 ∨ 3 ≤ m := by omega
          rcases Nat.even_or_odd m with hme | hmo
          · obtain ⟨t, ht⟩ := hme
            have h2d : 2 ∣ n.toNat := dvd_trans ⟨t, by omega⟩ hmdvd
            omega
          · obtain ⟨t, ht⟩ := hmo
            have hm3 : 3 ≤ m := by omega
            obtain ⟨s, hs⟩ : ∃ s, m = 3 + 2 * s := ⟨t - 1, by omega⟩
            subst hs
            refine hall s (by omega) ?_
            have hc := Int.natCast_dvd_natCast.mpr hmdvd
            rwa [hNn] at hc
        · rintro ⟨hn2, hp⟩ s hs hdvd
          rw [Nat.prime_def_le_sqrt] at hp
          refine hp.2 (3 + 2 * s) (by omega) (by omega) ?_
          rw [← hNn] at hdvd
          exact_mod_cast hdvd

/-- C1: for every integer `n`, `is_prime n` is `true` iff `n` is prime:
`false` for `n < 2`, `true` for `n = 2`, `false` for even `n > 2`, and for
odd `n > 2` it is `false` exactly when some odd integer from `3` up to and
including `⌊√n⌋` divides `n`, `true` when none does. -/
theorem is_prime_correct (n : ℤ) :
    (is_prime n = true ↔ 2 ≤ n ∧ Nat.Prime n.toNat) ∧
    (n < 2 → is_prime n = false) ∧
    is_prime 2 = true ∧
    (2 < n → n % 2 = 0 → is_prime n = false) ∧
    (2 < n → n % 2 = 1 →
      (is_prime n = false ↔
        ∃ j : ℕ, 3 ≤ j ∧ j ≤ Nat.sqrt n.toNat ∧ j % 2 = 1 ∧ (j : ℤ) ∣ n)) := by
  refine ⟨is_prime_eq_true_iff n, ?_, by decide, ?_, ?_⟩
  · intro h
    simp [is_prime, h]
  · intro h1 h2
    simp [is_prime, show ¬ n < 2 by omega, show n ≠ 2 by omega, h2]
  · intro h1 h2
    have hNn : (n.toNat : ℤ) = n := Int.toNat_of_nonneg (by omega)
    have hloop : is_prime n = trialLoop n ((isqrt n.toNat - 1) / 2) 3 := by
      simp [is_prime, show ¬ n < 2 by omega, show n ≠ 2 by omega, show ¬ n % 2 = 0 by omega]
    rw [hloop, isqrt_eq_sqrt]
    constructor
    · intro hfalse
      have hnot : ¬ trialLoop n ((Nat.sqrt n.toNat - 1) / 2) 3 = true := by
        simp [hfalse]
      rw [trialLoop_eq_true_iff] at hnot
      push_neg at hnot
      obtain ⟨s, hs, hdvd⟩ := hnot
      refine ⟨3 + 2 * s, by omega, by omega, by omega, ?_⟩
      exact_mod_cast hdvd
    · rintro ⟨j, hj3, hjsqrt, hjodd, hjdvd⟩
      obtain ⟨s, hs⟩ : ∃ s, j = 3 + 2 * s := ⟨(j - 3) / 2, by omega⟩
      subst hs
      have hnot : ¬ trialLoop n ((Nat.sqrt n.toNat - 1) / 2) 3 = true := by
        rw [trialLoop_eq_true_iff]
        push_neg
        exact ⟨s, by omega, hjdvd⟩
      simpa using hnot

/-- The growth term of the candidate cursor (`prime.py` line 47):
`math.floor(current_num * 0.00000005)` in exact arithmetic.  The constant
`0.00000005` is exactly the rational `1 / 20000000`, so the floor equals
`current / 20000000` (the Python source evaluates the product in binary64
floating point; this embedding uses the exact value of the constant). -/
def growth (current : ℕ) : ℕ := current / 20000000

/-- One cursor advance (`prime.py` line 48): `current += (stride + growth)`. -/
def advance (stride current : ℕ) : ℕ := current + (stride + growth current)

/-- The first `k` candidates a worker tests when its cursor is at `current`. -/
def candidates (stride : ℕ) : ℕ → ℕ → List ℕ
  | _, 0 => []
  | current, k + 1 => current :: candidates stride (advance stride current) k

/-- Local state of one time slice of a worker: the `count` and `max_found`
accumulators and the candidate cursor (`prime.py` lines 31–48). -/
structure SliceState where
  count : ℕ
  max_found : ℕ
  current : ℕ
  deriving Repr, DecidableEq

/-- One iteration of the inner slice loop (`prime.py` lines 40–48): test the
cursor with `is_prime`, on success bump `count` and record the candidate in
`max_found`, then advance the cursor. -/
def sliceStep (stride : ℕ) (s : SliceState) : SliceState :=
  if is_prime (s.current : ℤ) then
    { count := s.count + 1, max_found := s.current, current := advance stride s.current }
  else
    { s with current := advance stride s.current }

/-- Run `k` iterations of the inner slice loop; the number of candidates a
200 ms wall-clock window admits is abstracted by `k`. -/
def runSlice (stride : ℕ) : ℕ → SliceState → SliceState
  | 0, s => s
  | k + 1, s => runSlice stride k (sliceStep stride s)

/-- A batch report (`prime.py` lines 52–56). -/
structure BatchReport where
  id : ℕ
  count : ℕ
  highest : ℕ
  deriving Repr, DecidableEq

/-- The message a worker enqueues at the end of a slice that started at
cursor `current` and tested `k` candidates: `none` when the
`count > 0 or max_found > 0` guard (`prime.py` line 51) suppresses it. -/
def sliceReport (worker_id stride current k : ℕ) : Option BatchReport :=
  let r := runSlice stride k ⟨0, 0, current⟩
  if r.count > 0 ∨ r.max_found > 0 then some ⟨worker_id, r.count, r.max_found⟩ else none

theorem getLast?_cons_getD : ∀ (l : List ℕ) (x d : ℕ),
    (x :: l).getLast?.getD d = l.getLast?.getD x := by
  intro l
  induction l with
  | nil => intro x d; rfl
  | cons y ys ih =>
    intro x d
    rw [List.getLast?_cons_cons]
    calc (y :: ys).getLast?.getD d = ys.getLast?.getD y := ih y d
    _ = (y :: ys).getLast?.getD x := (ih y x).symm

theorem runSlice_spec (stride : ℕ) : ∀ k s,
    (runSlice stride k s).count
        = s.count + ((candidates stride s.current k).filter
            (fun n : ℕ => is_prime (n : ℤ))).length ∧
    (runSlice stride k s).max_found
        = ((candidates stride s.current k).filter
            (fun n : ℕ => is_prime (n : ℤ))).getLast?.getD s.max_found ∧
    (runSlice stride k s).current = (advance stride)^[k] s.current := by
  intro k
  induction k with
  | zero => intro s; simp [runSlice, candidates]
  | succ k ih =>
    intro s
    have hstep : runSlice stride (k + 1) s = runSlice stride k (sliceStep stride s) := rfl
    rw [hstep]
    by_cases hp : is_prime (s.current : ℤ)
    · have hs : sliceStep stride s
          = ⟨s.count + 1, s.current, advance stride s.current⟩ := by
        simp [sliceStep, hp]
      rw [hs]
      obtain ⟨ihc, ihm, ihcur⟩ := ih ⟨s.count + 1, s.current, advance stride s.current⟩
      refine ⟨?_, ?_, ?_⟩
      · rw [ihc]
        simp only [candidates, List.filter_cons, hp, if_pos]
        simp
        omega
      · rw [ihm]
        simp only [candidates, List.filter_cons, hp, if_pos]
        rw [getLast?_cons_getD]
      · rw [ihcur, Function.iterate_succ_apply]
    · have hs : sliceStep stride s
          = { s with current := advance stride s.current } := by
        simp [sliceStep, hp]
      rw [hs]
      obtain ⟨ihc, ihm, ihcur⟩ := ih { s with current := advance stride s.current }
      refine ⟨?_, ?_, ?_⟩
      · rw [ihc]
        simp [candidates, hp]
      · rw [ihm]
        simp [candidates, hp]
      · rw [ihcur, Function.iterate_succ_apply]

theorem le_advance (stride current : ℕ) : current ≤ advance stride current := by
  unfold advance growth
  omega

theorem advance_lt (stride : ℕ) (h : 1 ≤ stride) (current : ℕ) :
    current < advance stride current := by
  unfold advance growth
  omega

theorem mem_candidates_le (stride : ℕ) :
    ∀ k current x, x ∈ candidates stride current k → current ≤ x := by
  intro k
  induction k with
  | zero => intro current x hx; simp [candidates] at hx
  | succ k ih =>
    intro current x hx
    rw [candidates] at hx
    rcases List.mem_cons.mp hx with rfl | hx
    · exact le_refl x
    · exact le_trans (le_advance stride current) (ih _ x hx)

theorem candidates_pairwise (stride : ℕ) (h : 1 ≤ stride) :
    ∀ k current, (candidates stride current k).Pairwise (· < ·) := by
  intro k
  induction k with
  | zero => intro current; simp [candidates]
  | succ k ih =>
    intro current
    rw [candidates]
    refine List.pairwise_cons.mpr ⟨?_, ih _⟩
    intro x hx
    exact lt_of_lt_of_le (advance_lt stride h current) (mem_candidates_le stride k _ x hx)

theorem pairwise_lt_le_getLastD :
    ∀ (l : List ℕ) (d : ℕ), l.Pairwise (· < ·) → ∀ x ∈ l, x ≤ l.getLast?.getD d := by
  intro l
  induction l with
  | nil => intro d _ x hx; simp at hx
  | cons a t ih =>
    intro d hp x hx
    rw [getLast?_cons_getD]
    obtain ⟨ha, hpt⟩ := List.pairwise_cons.mp hp
    rcases List.mem_cons.mp hx with rfl | hxt
    · cases t with
      | nil => simp
      | cons b u =>
        have hne : (b :: u) ≠ ([] : List ℕ) := by simp
        rw [List.getLast?_eq_getLast _ hne]
        exact le_of_lt (ha _ (List.getLast_mem hne))
    · exact ih a hpt x hxt

/-- C2: the report of a time slice is emitted iff the slice's local prime
count is nonzero; in every emitted report, `count` equals the number of
primes among the candidates tested in the slice, and `highest` equals the
last prime tested, which (candidates being tested in strictly increasing
order) is the largest prime of the slice. -/
theorem sliceReport_correct (worker_id stride current k : ℕ) (hstride : 1 ≤ stride) :
    ((sliceReport worker_id stride current k).isSome
        ↔ (runSlice stride k ⟨0, 0, current⟩).count ≠ 0) ∧
    ∀ rep, sliceReport worker_id stride current k = some rep →
      rep.id = worker_id ∧
      rep.count = ((candidates stride current k).filter
          (fun n : ℕ => is_prime (n : ℤ))).length ∧
      ((candidates stride current k).filter
          (fun n : ℕ => is_prime (n : ℤ))).getLast? = some rep.highest ∧
      ∀ x ∈ (candidates stride current k).filter (fun n : ℕ => is_prime (n : ℤ)),
        x ≤ rep.highest := by
  obtain ⟨hc, hm, _⟩ := runSlice_spec stride k ⟨0, 0, current⟩
  simp only at hc hm
  constructor
  · unfold sliceReport
    dsimp only
    split
    · rename_i hguard
      simp only [Option.isSome_some, true_iff]
      rcases hguard with hcount | hmax
      · omega
      · intro hzero
        rw [hc] at hzero
        have hnil : (candidates stride current k).filter
            (fun n : ℕ => is_prime (n : ℤ)) = [] := by
          apply List.eq_nil_of_length_eq_zero
          omega
        rw [hm, hnil] at hmax
        simp at hmax
    · rename_i hguard
      push_neg at hguard
      simp only [Option.isSome_none, Bool.false_eq_true, false_iff, not_not]
      omega
  · intro rep hrep
    unfold sliceReport at hrep
    dsimp only at hrep
    split at hrep
    · rename_i hguard
      have hrepe : rep = ⟨worker_id, (runSlice stride k ⟨0, 0, current⟩).count,
          (runSlice stride k ⟨0, 0, current⟩).max_found⟩ := by
        cases hrep.symm
        rfl
      have hnonnil : (candidates stride current k).filter
          (fun n : ℕ => is_prime (n : ℤ)) ≠ [] := by
        intro hnil
        rw [hc, hnil] at hguard
        rw [hm, hnil] at hguard
        simp at hguard
      refine ⟨by rw [hrepe], by rw [hrepe]; simpa using hc, ?_, ?_⟩
      · rw [List.getLast?_eq_getLast _ hnonnil]
        rw [hrepe]
        simp only
        rw [hm, List.getLast?_eq_getLast _ hnonnil]
        rfl
      · intro x hx
        rw [hrepe]
        simp only
        rw [hm]
        exact pairwise_lt_le_getLastD _ 0
          (List.Pairwise.filter _ (candidates_pairwise stride hstride k current)) x hx
    · exact absurd hrep (by simp)

/-- Witness for C2 at `worker_id = 0`, `stride = 1`, `current = 100`,
`k = 5` (candidates `100, 101, 102, 103, 104`; primes `101` and `103`). -/
theorem sliceReport_correct_witness :
    ((sliceReport 0 1 100 5).isSome ↔ (runSlice 1 5 ⟨0, 0, 100⟩).count ≠ 0) ∧
    ∀ rep, sliceReport 0 1 100 5 = some rep →
      rep.id = 0 ∧
      rep.count = ((candidates 1 100 5).filter
          (fun n : ℕ => is_prime (n : ℤ))).length ∧
      ((candidates 1 100 5).filter
          (fun n : ℕ => is_prime (n : ℤ))).getLast? = some rep.highest ∧
      ∀ x ∈ (candidates 1 100 5).filter (fun n : ℕ => is_prime (n : ℤ)),
        x ≤ rep.highest :=
  sliceReport_correct 0 1 100 5 (by decide)

theorem advance_strict_mono (stride : ℕ) {a b : ℕ} (hab : a < b) :
    advance stride a < advance stride b := by
  unfold advance growth
  have := Nat.div_le_div_right (c := 20000000) (le_of_lt hab)
  omega

theorem advance_injective (stride : ℕ) {a b : ℕ} (h : advance stride a = advance stride b) :
    a = b := by
  rcases Nat.lt_trichotomy a b with hab | hab | hab
  · exact absurd h (Nat.ne_of_lt (advance_strict_mono stride hab))
  · exact hab
  · exact absurd h.symm (Nat.ne_of_lt (advance_strict_mono stride hab))

theorem le_iterate_advance (stride : ℕ) : ∀ n c, c ≤ (advance stride)^[n] c := by
  intro n
  induction n with
  | zero => intro c; simp
  | succ n ih =>
    intro c
    rw [Function.iterate_succ_apply]
    exact le_trans (le_advance stride c) (ih (advance stride c))

theorem lt_iterate_advance (stride : ℕ) (hs : 1 ≤ stride) :
    ∀ n c, c < (advance stride)^[n + 1] c := by
  intro n c
  rw [Function.iterate_succ_apply]
  exact lt_of_lt_of_le (advance_lt stride hs c) (le_iterate_advance stride n (advance stride c))

theorem orbits_disjoint_of_close (N a b : ℕ) (hab : a < b) (hba : b < a + N) :
    ∀ n m, (advance N)^[n] a ≠ (advance N)^[m] b := by
  intro n
  induction n with
  | zero =>
    intro m
    cases m with
    | zero => simpa using Nat.ne_of_lt hab
    | succ m =>
      simp only [Function.iterate_zero_apply]
      intro h
      have hge : b ≤ (advance N)^[m + 1] b := le_iterate_advance N (m + 1) b
      omega
  | succ n ih =>
    intro m
    cases m with
    | zero =>
      simp only [Function.iterate_zero_apply]
      intro h
      have h1 : advance N a ≤ (advance N)^[n + 1] a := by
        rw [Function.iterate_succ_apply]
        exact le_iterate_advance N n (advance N a)
      have h2 : a + N ≤ advance N a := by unfold advance growth; omega
      omega
    | succ m =>
      intro h
      rw [Function.iterate_succ_apply', Function.iterate_succ_apply'] at h
      exact ih m (advance_injective N h)

/-- C3: for pool size `N ≥ 1` and distinct worker indices `i, j < N`, the
candidate trajectory of worker `i` (iterating the cursor advance from
`100 + i`) never meets the trajectory of worker `j`. -/
theorem worker_trajectories_disjoint (N i j : ℕ) (hN : 1 ≤ N) (hi : i < N) (hj : j < N)
    (hij : i ≠ j) :
    ∀ n m, (advance N)^[n] (100 + i) ≠ (advance N)^[m] (100 + j) := by
  intro n m
  rcases Nat.lt_or_ge i j with hlt | hge
  · exact orbits_disjoint_of_close N (100 + i) (100 + j) (by omega) (by omega) n m
  · have hlt : j < i := by omega
    exact Ne.symm
      (orbits_disjoint_of_close N (100 + j) (100 + i) (by omega) (by omega) m n)

/-- Witness for C3: with pool size `2`, the trajectories of workers `0`
and `1` differ after one step. -/
theorem worker_trajectories_disjoint_witness :
    (advance 2)^[1] (100 + 0) ≠ (advance 2)^[1] (100 + 1) :=
  worker_trajectories_disjoint 2 0 1 (by decide) (by decide) (by decide) (by decide) 1 1

/-- C8: the candidate sequence is a pure function of `current` and `stride`
(identical inputs give identical sequences), and for `stride ≥ 1` it is
strictly increasing along iteration count. -/
theorem sequence_deterministic_and_increasing (stride current : ℕ) (hs : 1 ≤ stride)
    (hc : 1 ≤ current) :
    (∀ stride' current', stride' = stride → current' = current →
      ∀ k, candidates stride' current' k = candidates stride current k) ∧
    ∀ n m, n < m → (advance stride)^[n] current < (advance stride)^[m] current := by
  refine ⟨?_, ?_⟩
  · intro stride' current' h1 h2 k
    rw [h1, h2]
  · intro n m hnm
    obtain ⟨d, hd⟩ : ∃ d, m = n + (d + 1) := ⟨m - n - 1, by omega⟩
    subst hd
    rw [show n + (d + 1) = (d + 1) + n by omega, Function.iterate_add_apply]
    exact lt_iterate_advance stride hs d ((advance stride)^[n] current)

/-- Witness for C8 at `stride = 1`, `current = 100`. -/
theorem sequence_deterministic_and_increasing_witness :
    (advance 1)^[0] 100 < (advance 1)^[2] 100 :=
  (sequence_deterministic_and_increasing 1 100 (by decide) (by decide)).2 0 2 (by decide)

/-- C10: for `0 < current < 20000000` the growth term is `0`, so the cursor
advances by exactly `stride` and its residue class modulo `stride` is
preserved; a nonzero growth term requires `current ≥ 20000000`. -/
theorem growth_zero_below_twenty_million (stride current : ℕ) (h0 : 0 < current)
    (hlt : current < 20000000) :
    growth current = 0 ∧
    advance stride current = current + stride ∧
    advance stride current % stride = current % stride ∧
    ∀ c : ℕ, growth c ≠ 0 → 20000000 ≤ c := by
  have hg : growth current = 0 := by unfold growth; omega
  refine ⟨hg, by unfold advance; omega, ?_, ?_⟩
  · unfold advance
    rw [hg]
    simp [Nat.add_mod_right]
  · intro c hc
    unfold growth at hc
    omega

/-- Witness for C10 at `current = 123`, `stride = 4`. -/
theorem growth_zero_below_twenty_million_witness :
    growth 123 = 0 ∧
    advance 4 123 = 123 + 4 ∧
    advance 4 123 % 4 = 123 % 4 ∧
    ∀ c : ℕ, growth c ≠ 0 → 20000000 ≤ c :=
  growth_zero_below_twenty_million 4 123 (by decide) (by decide)

/-- The aggregate state held by `main` (`prime.py` lines 133–139): the
`stats` dictionary.  Python integers are embedded as `ℤ`. -/
structure AggState where
  total : ℤ
  speed : ℤ
  highest : ℤ
  threads : ℕ
  running : Bool
  deriving Repr, DecidableEq

/-- The initial `stats` of `main` (`prime.py` lines 133–139). -/
def initStats (core_count : ℕ) : AggState :=
  { total := 0, speed := 0, highest := 0, threads := core_count, running := true }

/-- Folding one queue message into `stats` (`prime.py` lines 160–163):
`total += count` and `highest = data['highest']` when it exceeds the old
value. -/
def applyReport (s : AggState) (r : BatchReport) : AggState :=
  { s with
    total := s.total + (r.count : ℤ),
    highest := if (r.highest : ℤ) > s.highest then (r.highest : ℤ) else s.highest }

/-- Draining all currently queued messages (`prime.py` lines 159–163). -/
def drainQueue (s : AggState) (rs : List BatchReport) : AggState :=
  rs.foldl applyReport s

/-- State of the `main` loop: the `stats` dictionary together with the
`last_total_primes` baseline of the velocity cadence (`prime.py` line 142;
`last_check_time` is abstracted by the boundary flag of `mainTick`). -/
structure MainState where
  stats : AggState
  last_total_primes : ℤ
  deriving Repr, DecidableEq

/-- The velocity update of `main` (`prime.py` lines 166–170): at a
one-second boundary, `speed = total - last_total_primes` and the baseline
is reset; otherwise nothing happens. -/
def velocityUpdate (atBoundary : Bool) (m : MainState) : MainState :=
  if atBoundary then
    { stats := { m.stats with speed := m.stats.total - m.last_total_primes },
      last_total_primes := m.stats.total }
  else m

/-- One iteration of the `main` polling loop (`prime.py` lines 157–173):
drain the queue, then run the velocity update; `atBoundary` abstracts the
wall-clock test `now - last_check_time >= 1.0`. -/
def mainTick (rs : List BatchReport) (atBoundary : Bool) (m : MainState) : MainState :=
  velocityUpdate atBoundary { m with stats := drainQueue m.stats rs }

theorem if_gt_eq_max (a b : ℤ) : (if b > a then b else a) = max a b := by
  split <;> omega

theorem drainQueue_total (rs : List BatchReport) : ∀ s : AggState,
    (drainQueue s rs).total = s.total + (rs.map (fun r => (r.count : ℤ))).sum := by
  induction rs with
  | nil => intro s; simp [drainQueue]
  | cons r rs ih =>
    intro s
    have h : drainQueue s (r :: rs) = drainQueue (applyReport s r) rs := rfl
    rw [h, ih]
    simp [applyReport]
    ring

theorem drainQueue_highest (rs : List BatchReport) : ∀ s : AggState,
    (drainQueue s rs).highest = (rs.map (fun r => (r.highest : ℤ))).foldl max s.highest := by
  induction rs with
  | nil => intro s; simp [drainQueue]
  | cons r rs ih =>
    intro s
    have h : drainQueue s (r :: rs) = drainQueue (applyReport s r) rs := rfl
    rw [h, ih]
    simp [applyReport, if_gt_eq_max]

theorem drainQueue_speed (rs : List BatchReport) : ∀ s : AggState,
    (drainQueue s rs).speed = s.speed := by
  induction rs with
  | nil => intro s; simp [drainQueue]
  | cons r rs ih =>
    intro s
    have h : drainQueue s (r :: rs) = drainQueue (applyReport s r) rs := rfl
    rw [h, ih]
    simp [applyReport]

theorem le_foldl_max (l : List ℤ) : ∀ a : ℤ, a ≤ l.foldl max a := by
  induction l with
  | nil => intro a; simp
  | cons x xs ih =>
    intro a
    simp only [List.foldl_cons]
    exact le_trans (le_max_left a x) (ih (max a x))

/-- C5: folding any `BatchReport` into the aggregate never decreases
`highest` or `total`; after draining any sequence of reports from the
initial state, `highest` equals the maximum (starting from `0`) of all
report `highest` values folded in so far. -/
theorem aggregator_monotone_and_max (core_count : ℕ) (rs : List BatchReport)
    (s : AggState) (r : BatchReport) :
    s.highest ≤ (applyReport s r).highest ∧
    s.total ≤ (applyReport s r).total ∧
    s.highest ≤ (drainQueue s rs).highest ∧
    s.total ≤ (drainQueue s rs).total ∧
    (drainQueue (initStats core_count) rs).highest
      = (rs.map (fun r => (r.highest : ℤ))).foldl max 0 := by
  refine ⟨?_, ?_, ?_, ?_, ?_⟩
  · simp only [applyReport]
    rw [if_gt_eq_max]
    exact le_max_left _ _
  · simp only [applyReport]
    have : (0 : ℤ) ≤ (r.count : ℤ) := Int.natCast_nonneg _
    omega
  · rw [drainQueue_highest]
    exact le_foldl_max _ _
  · rw [drainQueue_total]
    have : (0 : ℤ) ≤ ((rs.map (fun r => (r.count : ℤ))).sum) := by
      apply List.sum_nonneg
      intro x hx
      obtain ⟨r', _, rfl⟩ := List.mem_map.mp hx
      exact Int.natCast_nonneg _
    omega
  · rw [drainQueue_highest]
    rfl

theorem foldl_max_perm {l₁ l₂ : List ℤ} (h : l₁.Perm l₂) :
    ∀ a : ℤ, l₁.foldl max a = l₂.foldl max a := by
  induction h with
  | nil => intro a; rfl
  | cons x _ ih => intro a; simp only [List.foldl_cons]; exact ih (max a x)
  | swap x y l => intro a; simp only [List.foldl_cons]; rw [max_assoc, max_comm y x, ← max_assoc]
  | trans _ _ ih1 ih2 => intro a; rw [ih1 a, ih2 a]

/-- C6: draining the same multiset of `BatchReport`s in any order yields
the same final `total` and the same final `highest`. -/
theorem aggregator_commutative (s : AggState) (rs₁ rs₂ : List BatchReport)
    (hperm : rs₁.Perm rs₂) :
    (drainQueue s rs₁).total = (drainQueue s rs₂).total ∧
    (drainQueue s rs₁).highest = (drainQueue s rs₂).highest := by
  constructor
  · rw [drainQueue_total, drainQueue_total, (hperm.map (fun r => (r.count : ℤ))).sum_eq]
  · rw [drainQueue_highest, drainQueue_highest]
    exact foldl_max_perm (hperm.map (fun r => (r.highest : ℤ))) s.highest

/-- Witness for C6 on a two-report multiset fed in both orders. -/
theorem aggregator_commutative_witness :
    (drainQueue (initStats 2) [⟨0, 1, 101⟩, ⟨1, 2, 103⟩]).total
        = (drainQueue (initStats 2) [⟨1, 2, 103⟩, ⟨0, 1, 101⟩]).total ∧
    (drainQueue (initStats 2) [⟨0, 1, 101⟩, ⟨1, 2, 103⟩]).highest
        = (drainQueue (initStats 2) [⟨1, 2, 103⟩, ⟨0, 1, 101⟩]).highest :=
  aggregator_commutative (initStats 2) _ _ (List.Perm.swap _ _ _)

/-- C7: `speed` is recomputed only at a cadence boundary, where it becomes
the current total minus the total at the previous boundary and the
baseline is reset; away from a boundary a tick leaves `speed` and the
baseline unchanged (and draining reports never touches `speed`). -/
theorem speed_cadence (rs : List BatchReport) (m : MainState) :
    (mainTick rs false m).stats.speed = m.stats.speed ∧
    (mainTick rs false m).last_total_primes = m.last_total_primes ∧
    (drainQueue m.stats rs).speed = m.stats.speed ∧
    (mainTick rs true m).stats.speed = (drainQueue m.stats rs).total - m.last_total_primes ∧
    (mainTick rs true m).last_total_primes = (drainQueue m.stats rs).total := by
  refine ⟨?_, ?_, drainQueue_speed rs m.stats, ?_, ?_⟩ <;>
    simp [mainTick, velocityUpdate, drainQueue_speed]

/-- The outer worker loop of `worker_process` (`prime.py` lines 33–56),
run against a finite trace of observations.  At each loop head the worker
reads the stop flag (`stop_event.is_set()`); if it is set the loop exits,
otherwise the worker runs one time slice — whose candidate count, fixed in
reality by the 200 ms wall clock, is the `ℕ` component of the observation
— and enqueues the slice's report, if any.  Returns the reports sent, in
order, and whether the loop has exited within the trace. -/
def worker_process (worker_id stride : ℕ) : ℕ → List (Bool × ℕ) → List BatchReport × Bool
  | _, [] => ([], false)
  | current, (stop, k) :: rest =>
    if stop then ([], true)
    else
      let next := worker_process worker_id stride
        (runSlice stride k ⟨0, 0, current⟩).current rest
      ((sliceReport worker_id stride current k).toList ++ next.1, next.2)

/-- C9: the worker loop's only exit path is observing the stop flag at a
slice boundary.  While every observed flag is unset the loop never exits,
and as soon as a set flag is observed (after at most the one slice already
in flight) the worker terminates, sending exactly the reports of the
slices that preceded the stop — none afterwards, whatever follows in the
trace. -/
theorem worker_process_exit (worker_id stride current : ℕ) :
    ∀ pre : List (Bool × ℕ), (∀ p ∈ pre, p.1 = false) →
      (worker_process worker_id stride current pre).2 = false ∧
      ∀ k (post : List (Bool × ℕ)),
        worker_process worker_id stride current (pre ++ (true, k) :: post)
          = ((worker_process worker_id stride current pre).1, true) := by
  have main : ∀ pre : List (Bool × ℕ), ∀ current, (∀ p ∈ pre, p.1 = false) →
      (worker_process worker_id stride current pre).2 = false ∧
      ∀ k (post : List (Bool × ℕ)),
        worker_process worker_id stride current (pre ++ (true, k) :: post)
          = ((worker_process worker_id stride current pre).1, true) := by
    intro pre
    induction pre with
    | nil =>
      intro current _
      refine ⟨rfl, ?_⟩
      intro k post
      simp [worker_process]
    | cons p rest ih =>
      intro current hflags
      obtain ⟨stop, k⟩ := p
      have hstop : stop = false := hflags (stop, k) (List.mem_cons_self _ _)
      subst hstop
      have hrest : ∀ q ∈ rest, q.1 = false := fun q hq => hflags q (List.mem_cons_of_mem _ hq)
      obtain ⟨ih1, ih2⟩ := ih (runSlice stride k ⟨0, 0, current⟩).current hrest
      constructor
      · simp only [worker_process, Bool.false_eq_true, if_false]
        exact ih1
      · intro k' post
        have happ : ((false, k) :: rest) ++ (true, k') :: post
            = (false, k) :: (rest ++ (true, k') :: post) := rfl
        rw [happ]
        simp only [worker_process, Bool.false_eq_true, if_false]
        rw [ih2 k' post]
  exact fun pre => main pre current

/-- Witness for C9: one unset observation, then a set flag. -/
theorem worker_process_exit_witness :
    (worker_process 0 1 100 [(false, 2)]).2 = false ∧
    worker_process 0 1 100 [(false, 2), (true, 3)]
      = ((worker_process 0 1 100 [(false, 2)]).1, true) := by
  obtain ⟨h1, h2⟩ := worker_process_exit 0 1 100 [(false, 2)] (by simp)
  exact ⟨h1, h2 3 []⟩

/-- Witness for C1 at the boundary inputs `97`, `-5`, `10` and `9`. -/
theorem is_prime_correct_witness :
    (is_prime 97 = true ↔ 2 ≤ (97 : ℤ) ∧ Nat.Prime (97 : ℤ).toNat) ∧
    is_prime (-5) = false ∧
    is_prime 10 = false ∧
    (is_prime 9 = false ↔
      ∃ j : ℕ, 3 ≤ j ∧ j ≤ Nat.sqrt (9 : ℤ).toNat ∧ j % 2 = 1 ∧ (j : ℤ) ∣ 9) :=
  ⟨(is_prime_correct 97).1, (is_prime_correct (-5)).2.1 (by decide),
   (is_prime_correct 10).2.2.2.1 (by decide) (by decide),
   (is_prime_correct 9).2.2.2.2 (by decide) (by decide)⟩
